import Mathlib

/-!
Verification of the MILP scheduling model builder of the QuantumEnv repository
(`src/scheduling/setup_lp.py` and `data/example/solution_explorer.py`).

The pulp-based model builder is shallowly embedded: an LP variable is a
constructor of `Var`, a pulp affine expression is a `LinExpr` (ordered list of
coefficient/variable terms plus a constant), a constraint records the two sides
exactly as the source writes them, and a problem is the ordered list of
constraints that the Python code adds via `problem +=`.  Rational numbers stand
for the Python floats.
-/

namespace QEnv

/-- Decision variables of the scheduling MILP, one constructor per pulp
variable family of `setup_lp.py`: `x_ik` (assign), `z_ikt` (occupy), `c_j`
(completion), `s_j` (start), `makespan`, and the extended-formulation families
`y_ijk` (order), `a_ij` (ends before start), `b_ij` (ends before end),
`d_ijk` (same machine), `e_ijlk` (chained predecessor). -/
inductive Var where
  | x (job machine : String)
  | z (job machine : String) (t : Nat)
  | c (job : String)
  | s (job : String)
  | cmax
  | y (i j machine : String)
  | a (i j : String)
  | b (i j : String)
  | d (i j machine : String)
  | e (i j l machine : String)
deriving DecidableEq

/-- A pulp affine expression: an ordered list of (coefficient, variable) terms
plus a constant. -/
structure LinExpr where
  terms : List (Rat × Var)
  const : Rat
deriving DecidableEq

/-- The expression consisting of one variable with coefficient 1. -/
def ofVar (w : Var) : LinExpr := ⟨[(1, w)], 0⟩

/-- A constant expression. -/
def konst (q : Rat) : LinExpr := ⟨[], q⟩

/-- Sum of two affine expressions (pulp `+`): terms are concatenated in
order, constants added. -/
def LinExpr.add (e1 e2 : LinExpr) : LinExpr :=
  ⟨e1.terms ++ e2.terms, e1.const + e2.const⟩

/-- Multiplication of an affine expression by a scalar (pulp `*`): every
coefficient and the constant are scaled. -/
def LinExpr.smul (q : Rat) (e : LinExpr) : LinExpr :=
  ⟨e.terms.map (fun p => (q * p.1, p.2)), q * e.const⟩

/-- Subtraction of affine expressions (pulp `-`). -/
def LinExpr.sub (e1 e2 : LinExpr) : LinExpr := e1.add (LinExpr.smul (-1) e2)

/-- Division of an affine expression by a scalar (pulp `/`). -/
def LinExpr.div (e : LinExpr) (q : Rat) : LinExpr :=
  ⟨e.terms.map (fun p => (p.1 / q, p.2)), e.const / q⟩

/-- pulp `lpSum` over a list of expressions, folded left to right. -/
def lpSum (l : List LinExpr) : LinExpr := l.foldl LinExpr.add (konst 0)

/-- Comparison sense of a pulp constraint. -/
inductive Cmp where
  | le
  | ge
  | eq
deriving DecidableEq

/-- A pulp constraint, kept exactly as written in the source: left side,
sense, right side. -/
structure Constr where
  lhs : LinExpr
  cmp : Cmp
  rhs : LinExpr
deriving DecidableEq

/-- A pulp problem: the objective expression plus the constraints in the
order the source added them. -/
structure Problem where
  objective : LinExpr
  constraints : List Constr
deriving DecidableEq

/-- Mirrors `JobHelper` of `scheduling/types.py` as used by `setup_lp.py`:
a job name paired with its (optional) circuit. A circuit is abstracted to
its qubit count, the only attribute the scheduler reads. -/
structure Circuit where
  num_qubits : Nat
deriving DecidableEq

/-- A named circuit record stored in `LPInstance.named_circuits`. -/
structure JobHelper where
  name : String
  circuit : Option Circuit
deriving DecidableEq

/-- Mirrors the `LPInstance` record returned by `_define_lp`: the problem,
the job and machine key lists, and the named-circuit records.  The variable
dictionaries `x_ik`, `z_ikt`, `c_j`, `s_j` need no field because a variable
is identified by its `Var` constructor. -/
structure LPInstance where
  problem : Problem
  jobs : List String
  machines : List String
  named_circuits : List JobHelper
deriving DecidableEq

/-! ## Semantics of expressions and constraints -/

/-- Value of an affine expression under a valuation of the variables. -/
def LinExpr.eval (v : Var → Rat) (e : LinExpr) : Rat :=
  (e.terms.map (fun p => p.1 * v p.2)).sum + e.const

/-- A valuation satisfies a constraint when the comparison between the two
evaluated sides holds. -/
def Constr.holds (v : Var → Rat) (co : Constr) : Prop :=
  match co.cmp with
  | .le => co.lhs.eval v ≤ co.rhs.eval v
  | .ge => co.rhs.eval v ≤ co.lhs.eval v
  | .eq => co.lhs.eval v = co.rhs.eval v

instance (v : Var → Rat) (co : Constr) : Decidable (co.holds v) :=
  match co with
  | ⟨l, .le, r⟩ => inferInstanceAs (Decidable (l.eval v ≤ r.eval v))
  | ⟨l, .ge, r⟩ => inferInstanceAs (Decidable (r.eval v ≤ l.eval v))
  | ⟨l, .eq, r⟩ => inferInstanceAs (Decidable (l.eval v = r.eval v))

/-- A rational is a feasible value of a pulp `Binary` variable. -/
def isBin (q : Rat) : Prop := q = 0 ∨ q = 1

instance (q : Rat) : Decidable (isBin q) := inferInstanceAs (Decidable (_ ∨ _))

/-- Variable-domain feasibility, restricted to the variables `_define_lp` and
`set_up_extended_lp` declare for the given index lists: `x`, `z`, `y`, `a`,
`b`, `d`, `e` are pulp `Binary`; `c_j`, `s_j` and `makespan` are continuous
with lower bound 0. -/
def admissibleOn (jobs machines : List String) (ts : List Nat) (v : Var → Rat) : Prop :=
  (∀ i ∈ jobs, ∀ k ∈ machines, isBin (v (.x i k))) ∧
  (∀ i ∈ jobs, ∀ k ∈ machines, ∀ t ∈ ts, isBin (v (.z i k t))) ∧
  (∀ i ∈ jobs, 0 ≤ v (.c i) ∧ 0 ≤ v (.s i)) ∧
  0 ≤ v .cmax ∧
  (∀ i ∈ jobs, ∀ j ∈ jobs, ∀ k ∈ machines, isBin (v (.y i j k))) ∧
  (∀ i ∈ jobs, ∀ j ∈ jobs, isBin (v (.a i j)) ∧ isBin (v (.b i j))) ∧
  (∀ i ∈ jobs, ∀ j ∈ jobs, ∀ k ∈ machines, isBin (v (.d i j k))) ∧
  (∀ i ∈ jobs, ∀ j ∈ jobs, ∀ l ∈ jobs, ∀ k ∈ machines, isBin (v (.e i j l k)))

instance (jobs machines : List String) (ts : List Nat) (v : Var → Rat) :
    Decidable (admissibleOn jobs machines ts v) := by
  unfold admissibleOn
  infer_instance

/-- A valuation is a feasible point of a constraint list when it satisfies
every constraint. -/
def satAll (v : Var → Rat) (l : List Constr) : Prop := ∀ co ∈ l, co.holds v

instance (v : Var → Rat) (l : List Constr) : Decidable (satAll v l) :=
  inferInstanceAs (Decidable (∀ co ∈ l, co.holds v))

/-! ## The base model builder `_define_lp` -/

/-- First-match lookup in an association list with a default, modelling a
Python dict lookup (keys of the dicts fed to `_define_lp` are unique). -/
def dictGet (l : List (String × Rat)) (k : String) : Rat :=
  match l.find? (fun p => p.1 == k) with
  | some p => p.2
  | none => 0

/-- Constraint 2 of `_define_lp`: the sentinel job's completion time is 0. -/
def conSentinel : Constr := ⟨ofVar (.c "0"), .eq, konst 0⟩

/-- Constraint 1 of `_define_lp`: a job completes no later than the makespan. -/
def conMakespan (job : String) : Constr := ⟨ofVar (.c job), .le, ofVar .cmax⟩

/-- Constraint 3 of `_define_lp`: a job is assigned to exactly one machine. -/
def conAssignOne (machines : List String) (job : String) : Constr :=
  ⟨lpSum (machines.map (fun m => ofVar (.x job m))), .eq, konst 1⟩

/-- Constraint 7 of `_define_lp`: completion minus start plus one equals the
number of occupied (machine, timestep) slots. -/
def conSpan (machines : List String) (ts : List Nat) (job : String) : Constr :=
  ⟨((ofVar (.c job)).sub (ofVar (.s job))).add (konst 1), .eq,
    lpSum (ts.flatMap (fun t => machines.map (fun m => ofVar (.z job m t))))⟩

/-- Constraint 8 of `_define_lp`: total occupation of a machine by a job is
bounded by `big_m` times its assignment indicator. -/
def conLink (ts : List Nat) (big_m : Rat) (job m : String) : Constr :=
  ⟨lpSum (ts.map (fun t => ofVar (.z job m t))), .le,
    LinExpr.smul big_m (ofVar (.x job m))⟩

/-- Constraint 9 of `_define_lp`: the occupancy-weighted timestep never
exceeds the job's completion time. -/
def conNoLate (machines : List String) (job : String) (t : Nat) : Constr :=
  ⟨LinExpr.smul (t : Rat) (lpSum (machines.map (fun m => ofVar (.z job m t)))), .le,
    ofVar (.c job)⟩

/-- Constraint 10 of `_define_lp`: the start time is at most any occupied
timestep, relaxed by `big_m` at unoccupied timesteps. -/
def conStart (machines : List String) (big_m : Rat) (job : String) (t : Nat) : Constr :=
  ⟨ofVar (.s job), .le,
    (LinExpr.smul (t : Rat) (lpSum (machines.map (fun m => ofVar (.z job m t))))).add
      (LinExpr.smul big_m
        ((konst 1).sub (lpSum (machines.map (fun m => ofVar (.z job m t))))))⟩

/-- Constraint 11 of `_define_lp`: at every timestep a machine's capacity
bounds the capacity-weighted sum of the jobs occupying it. -/
def conCapacity (job_capacities machine_capacities : List (String × Rat))
    (t : Nat) (m : String) : Constr :=
  ⟨lpSum (((job_capacities.map Prod.fst).drop 1).map
      (fun job => LinExpr.smul (dictGet job_capacities job) (ofVar (.z job m t)))), .le,
    konst (dictGet machine_capacities m)⟩

/-- Embedding of `_define_lp` of `setup_lp.py`: builds the base problem with
the objective `makespan` and constraints 1-3 and 7-11, added in the order of
the source (sentinel first, then per non-sentinel job its constraints 1, 3, 7,
then constraint 8 per machine, then constraints 9 and 10 per timestep, and
finally constraint 11 per timestep and machine). -/
def define_lp (job_capacities machine_capacities : List (String × Rat))
    (timesteps : List Nat) (big_m : Rat) : LPInstance :=
  let jobs := job_capacities.map Prod.fst
  let machines := machine_capacities.map Prod.fst
  let constrs : List Constr :=
    [conSentinel] ++
    (jobs.drop 1).flatMap (fun job =>
      [conMakespan job,
       conAssignOne machines job,
       conSpan machines timesteps job] ++
      machines.map (fun m => conLink timesteps big_m job m) ++
      timesteps.flatMap (fun t =>
        [conNoLate machines job t, conStart machines big_m job t])) ++
    timesteps.flatMap (fun t =>
      machines.map (fun m => conCapacity job_capacities machine_capacities t m))
  { problem := { objective := ofVar .cmax, constraints := constrs }
    jobs := jobs
    machines := machines
    named_circuits := [] }

/-! ## `pulp.makeDict` -/

/-- Last-binding lookup in an association list, modelling a Python
`dict(zip(keys, values))`: `zip` truncates to the shorter list and a repeated
key keeps its last value. -/
def zipGet (keys : List String) (vals : List Rat) (k : String) : Option Rat :=
  ((keys.zip vals).filter (fun p => p.1 == k)).getLast?.map Prod.snd

/-- Row-level lookup with the same zip semantics, one nesting level up. -/
def zipGetRow (keys : List String) (vals : List (List Rat)) (k : String) :
    Option (List Rat) :=
  ((keys.zip vals).filter (fun p => p.1 == k)).getLast?.map Prod.snd

/-- Plane-level lookup with the same zip semantics, two nesting levels up. -/
def zipGetPlane (keys : List String) (vals : List (List (List Rat))) (k : String) :
    Option (List (List Rat)) :=
  ((keys.zip vals).filter (fun p => p.1 == k)).getLast?.map Prod.snd

/-- Embedding of `pulp.makeDict` with two index levels and a default: a missing key at
either level yields the default (pulp wraps the dicts so that `__missing__`
returns it). -/
def makeDict2 (rows cols : List String) (arr : List (List Rat)) (dflt : Rat)
    (r c : String) : Rat :=
  match zipGetRow rows arr r with
  | none => dflt
  | some row =>
    match zipGet cols row c with
    | none => dflt
    | some q => q

/-- Embedding of `pulp.makeDict` with three index levels and a default. -/
def makeDict3 (l1 l2 l3 : List String) (arr : List (List (List Rat))) (dflt : Rat)
    (k1 k2 k3 : String) : Rat :=
  match zipGetPlane l1 arr k1 with
  | none => dflt
  | some plane => makeDict2 l2 l3 plane dflt k2 k3

/-! ## The simple (overestimated) extension -/

/-- The maximum of a list of rationals, `none` when the list is empty
(`np.max` raises on an empty reduction axis). -/
def listMax (l : List Rat) : Option Rat := l.max?

/-- Embedding of `_get_simple_setup_times` of `setup_lp.py`.  For each row
index `idx` of the (job, job, machine) setup-time table it selects the rows
`t ∉ {0, idx}` of slice `idx`, takes per machine the maximum over the selected
rows (`np.max(..., axis=1)` after a transpose; `none` when the selection is
empty but machines remain), then deletes the first row of the result and the
first entry of every remaining row (the source comments this pair of `del`
statements with "remove job 0"). -/
def getSimpleSetupTimes (setup_times : List (List (List Rat))) :
    Option (List (List Rat)) := do
  let new_times ← setup_times.enum.mapM (fun p =>
    let idx := p.1
    let times := p.2
    let numMachines := ((times.head?).map List.length).getD 0
    let sel := (times.enum.filter (fun q => ¬(q.1 = 0 ∨ q.1 = idx))).map Prod.snd
    (List.range numMachines).mapM (fun m =>
      listMax (sel.map (fun row => row.getD m 0))))
  return (new_times.drop 1).map (fun times => times.drop 1)

/-- The one constraint `set_up_simple_lp` adds per non-sentinel job:
`c_j[job] ≥ s_j[job] + Σ_machine x_ik[job][machine]·(p_times + s_times)`. -/
def conSimple (machines : List String) (p_times s_times : String → String → Rat)
    (job : String) : Constr :=
  ⟨ofVar (.c job), .ge,
    (ofVar (.s job)).add
      (lpSum (machines.map (fun m =>
        LinExpr.smul (p_times job m + s_times job m) (ofVar (.x job m)))))⟩

/-- Embedding of `set_up_simple_lp` of `setup_lp.py`: overestimated,
sequence-independent setup times; `none` when `_get_simple_setup_times`
raises. -/
def set_up_simple_lp (lp : LPInstance) (process_times : List (List Rat))
    (setup_times : List (List (List Rat))) : Option LPInstance :=
  match getSimpleSetupTimes setup_times with
  | none => none
  | some simple_times =>
    let p_times := makeDict2 (lp.jobs.drop 1) lp.machines process_times 0
    let s_times := makeDict2 (lp.jobs.drop 1) lp.machines simple_times 0
    some { lp with
      problem := { lp.problem with
        constraints := lp.problem.constraints ++
          (lp.jobs.drop 1).map (conSimple lp.machines p_times s_times) } }

/-! ## The extended (exact precedence) extension -/

/-- Extended constraint (4): every non-sentinel job has at least one active
predecessor edge. -/
def conPred (jobs machines : List String) (job : String) : Constr :=
  ⟨lpSum (machines.flatMap (fun m => jobs.map (fun jj => ofVar (.y jj job m)))),
    .ge, konst 1⟩

/-- Extended constraint (7): completion covers start plus process time on the
assigned machine plus the setup time of the active predecessor edges. -/
def conCompletion (jobs machines : List String)
    (p_times : String → String → Rat) (s_times : String → String → String → Rat)
    (job : String) : Constr :=
  ⟨ofVar (.c job), .ge,
    ((ofVar (.s job)).add
      (lpSum (machines.map (fun m =>
        LinExpr.smul (p_times job m) (ofVar (.x job m)))))).add
      (lpSum (machines.flatMap (fun m => jobs.map (fun jj =>
        LinExpr.smul (s_times jj job m) (ofVar (.y jj job m))))))⟩

/-- Extended constraint (6): a machine's predecessor edges into a job imply
the job's assignment there. -/
def conEdgeAssignPred (jobs : List String) (big_m : Rat) (job m : String) : Constr :=
  ⟨ofVar (.x job m), .ge,
    LinExpr.div (lpSum (jobs.map (fun jj => ofVar (.y jj job m)))) big_m⟩

/-- Extended successor form of constraint (6). -/
def conEdgeAssignSucc (jobs : List String) (big_m : Rat) (job m : String) : Constr :=
  ⟨ofVar (.x job m), .ge,
    LinExpr.div (lpSum (jobs.map (fun jj => ofVar (.y job jj m)))) big_m⟩

/-- Extended constraint (5): a job occupies timestep 0 of a machine iff the
sentinel is its predecessor there. -/
def conFirstSlot (job m : String) : Constr :=
  ⟨ofVar (.z job m 0), .eq, ofVar (.y "0" job m)⟩

/-- Extended pair constraint: an active edge from `jj` to `job` forces `jj`
to complete before `job` starts, relaxed by `big_m` otherwise. -/
def conOrderTime (machines : List String) (big_m : Rat) (job jj : String) : Constr :=
  ⟨(ofVar (.c jj)).add
      (LinExpr.smul big_m
        ((lpSum (machines.map (fun m => ofVar (.y jj job m)))).sub (konst 1))),
    .le, ofVar (.s job)⟩

/-- Diagonal case of the auxiliary relational variables: `a_ij[i][i] = 0`. -/
def conDiagA (job : String) : Constr := ⟨ofVar (.a job job), .eq, konst 0⟩

/-- Diagonal case of the auxiliary relational variables: `b_ij[i][i] = 0`. -/
def conDiagB (job : String) : Constr := ⟨ofVar (.b job job), .eq, konst 0⟩

/-- Auxiliary bound `a_ij[i][j] ≥ (s_j[j] − c_j[i]) / big_m`. -/
def conA (big_m : Rat) (job jj : String) : Constr :=
  ⟨ofVar (.a job jj), .ge,
    LinExpr.div ((ofVar (.s jj)).sub (ofVar (.c job))) big_m⟩

/-- Auxiliary bound `b_ij[i][j] ≥ (c_j[j] − c_j[i]) / big_m`. -/
def conB (big_m : Rat) (job jj : String) : Constr :=
  ⟨ofVar (.b job jj), .ge,
    LinExpr.div ((ofVar (.c jj)).sub (ofVar (.c job))) big_m⟩

/-- Auxiliary bound `d_ijk[i][j][k] ≥ x_ik[i][k] + x_ik[j][k] − 1`. -/
def conD (job jj m : String) : Constr :=
  ⟨ofVar (.d job jj m), .ge,
    ((ofVar (.x job m)).add (ofVar (.x jj m))).sub (konst 1)⟩

/-- Auxiliary bound for the chained-predecessor indicator `e_ijlk`. -/
def conE (job jj jl m : String) : Constr :=
  ⟨ofVar (.e job jj jl m), .ge,
    ((((ofVar (.b job jl)).add (ofVar (.a jl jj))).add
      (ofVar (.d job jj m))).add (ofVar (.d job jl m))).sub (konst 3)⟩

/-- Lower bound forcing an immediate-predecessor edge from the auxiliary
indicators. -/
def conY (jobs : List String) (big_m : Rat) (job jj m : String) : Constr :=
  ⟨ofVar (.y job jj m), .ge,
    (((ofVar (.a job jj)).add
      (LinExpr.div
        (lpSum ((jobs.drop 1).map (fun jl => ofVar (.e job jj jl m)))) big_m)).add
      (ofVar (.d job jj m))).sub (konst 2)⟩

/-- Embedding of `set_up_extended_lp` of `setup_lp.py`: the exact
sequence-dependent formulation, appending its constraints in source order. -/
def set_up_extended_lp (lp : LPInstance) (process_times : List (List Rat))
    (setup_times : List (List (List Rat))) (big_m : Rat) : LPInstance :=
  let p_times := makeDict2 (lp.jobs.drop 1) lp.machines process_times 0
  let s_times := makeDict3 lp.jobs lp.jobs lp.machines setup_times 0
  let block1 := (lp.jobs.drop 1).flatMap (fun job =>
    [conPred lp.jobs lp.machines job,
     conCompletion lp.jobs lp.machines p_times s_times job] ++
    lp.machines.flatMap (fun m =>
      [conEdgeAssignPred lp.jobs big_m job m,
       conEdgeAssignSucc lp.jobs big_m job m,
       conFirstSlot job m]) ++
    lp.jobs.map (fun jj => conOrderTime lp.machines big_m job jj))
  let block2 := (lp.jobs.drop 1).flatMap (fun job =>
    (lp.jobs.drop 1).flatMap (fun jj =>
      if job = jj then [conDiagA job, conDiagB job]
      else
        [conA big_m job jj, conB big_m job jj] ++
        lp.machines.flatMap (fun m =>
          conD job jj m :: (lp.jobs.drop 1).map (fun jl => conE job jj jl m))))
  let block3 := (lp.jobs.drop 1).flatMap (fun job =>
    (lp.jobs.drop 1).flatMap (fun jj =>
      lp.machines.map (fun m => conY lp.jobs big_m job jj m)))
  { lp with
    problem := { lp.problem with
      constraints := lp.problem.constraints ++ block1 ++ block2 ++ block3 } }

/-! ## The base-LP wrapper over jobs with circuits -/

/-- A `CircuitJob` as consumed by `_set_up_base_lp_exec`: its uuid (already
as the string the builder uses) and its optional circuit. -/
structure CircuitJob where
  uuid : String
  circuit : Option Circuit
deriving DecidableEq

/-- An `Accelerator` as consumed by `_set_up_base_lp_exec`: its uuid string
and qubit count. -/
structure Accelerator where
  uuid : String
  qubits : Nat
deriving DecidableEq

/-- The job-capacity dict built by `_set_up_base_lp_exec`: the sentinel entry
`"0" ↦ 0` followed by one entry per job whose circuit is present, keyed by
uuid with the circuit's qubit count. -/
def execJobCapacities (base_jobs : List CircuitJob) : List (String × Rat) :=
  ("0", 0) :: base_jobs.filterMap (fun j =>
    j.circuit.map (fun circ => (j.uuid, (circ.num_qubits : Rat))))

/-- The named-circuit records built by `_set_up_base_lp_exec`: the sentinel
helper followed by one helper per job whose circuit is present. -/
def execNamedCircuits (base_jobs : List CircuitJob) : List JobHelper :=
  ⟨"0", none⟩ :: base_jobs.filterMap (fun j =>
    j.circuit.map (fun circ => ⟨j.uuid, some circ⟩))

/-- Embedding of `_set_up_base_lp_exec` of `setup_lp.py`: jobs without a
circuit contribute nothing; the machine capacities come from the
accelerators' qubit counts. -/
def set_up_base_lp_exec (base_jobs : List CircuitJob)
    (accelerators : List Accelerator) (big_m : Rat) (timesteps : Nat) : LPInstance :=
  let job_capacities := execJobCapacities base_jobs
  let machine_capacities := accelerators.map (fun q => (q.uuid, (q.qubits : Rat)))
  let lp := define_lp job_capacities machine_capacities (List.range timesteps) big_m
  { lp with named_circuits := execNamedCircuits base_jobs }

/-! ## Result extraction (`_read_solution_file` of `solution_explorer.py`) -/

/-- One row of the dataframe `_read_solution_file` builds. The Python column
`end` is spelled `endTime` (`end` is a Lean keyword). -/
structure SolRow where
  job : String
  qubits : Option Rat
  machine : String
  capacity : Option Rat
  start : Rat
  endTime : Rat
  duration : Rat
deriving DecidableEq

/-- Lookup of a solved-variable value in the JSON `variables` object
(`dict.get`): first match, since JSON object keys are unique. -/
def varGet (varMap : List (String × Rat)) (k : String) : Option Rat :=
  (varMap.find? (fun p => p.1 == k)).map Prod.snd

/-- Optional lookup in a capacity mapping (`dict.get(key, None)`). -/
def capGet (caps : List (String × Rat)) (k : String) : Option Rat :=
  (caps.find? (fun p => p.1 == k)).map Prod.snd

/-- The `x_ik_{job_index}_{machine}` key probed for the assignment value. -/
def xKey (job_index : Nat) (machine : String) : String :=
  "x_ik_" ++ toString job_index ++ "_" ++ machine

/-- The `s_j_{job_index}` key of a job's solved start time. -/
def sKey (job_index : Nat) : String := "s_j_" ++ toString job_index

/-- The `c_j_{job_index}` key of a job's solved completion time. -/
def cKey (job_index : Nat) : String := "c_j_" ++ toString job_index

/-- The body of the per-job loop of `_read_solution_file`: find the first
machine whose assignment variable equals 1 (`variables.get(x_var, 0) == 1.0`),
then read the start and end values, failing as the source does. -/
def readJobRow (machines : List String) (job_capacities machine_capacities
    varMap : List (String × Rat)) (job_index : Nat) (job : String) :
    Except String SolRow :=
  match machines.find? (fun m => (varGet varMap (xKey job_index m)).getD 0 == 1) with
  | none => .error ("Error: No machine assigned for job " ++ job)
  | some assigned_machine =>
    match varGet varMap (sKey job_index), varGet varMap (cKey job_index) with
    | some start, some endv =>
      .ok { job := job
            qubits := capGet job_capacities job
            machine := assigned_machine
            capacity := capGet machine_capacities assigned_machine
            start := start
            endTime := endv
            duration := endv - start + 1 }
    | _, _ => .error ("Error: Start or end time not found for job " ++ job)

/-- The per-job loop of `_read_solution_file` over `enumerate(jobs, start=1)`:
rows accumulate in order and the first raised error aborts the whole read. -/
def readRows (machines : List String) (job_capacities machine_capacities
    varMap : List (String × Rat)) :
    List (Nat × String) → Except String (List SolRow)
  | [] => .ok []
  | (job_index, job) :: rest =>
    match readJobRow machines job_capacities machine_capacities varMap
        job_index job with
    | .error msg => .error msg
    | .ok row =>
      match readRows machines job_capacities machine_capacities varMap rest with
      | .error msg => .error msg
      | .ok rows => .ok (row :: rows)

/-- Embedding of `_read_solution_file` of `solution_explorer.py`, from the
parsed JSON data (the file-existence and JSON-shape errors of the source are
I/O and are not modelled): builds one dataframe row per job, in order. -/
def read_solution_file (jobs machines : List String)
    (job_capacities machine_capacities varMap : List (String × Rat)) :
    Except String (List SolRow) :=
  readRows machines job_capacities machine_capacities varMap
    (jobs.enum.map (fun p => (p.1 + 1, p.2)))

/-! ## Concrete test fixtures

Small closed scheduling instances used to witness the general theorems and to
exhibit counterexamples. -/

/-- One non-sentinel job of capacity 1. -/
def jcW : List (String × Rat) := [("0", 0), ("1", 1)]

/-- One machine of capacity 2. -/
def mcW : List (String × Rat) := [("k", 2)]

/-- Two timesteps. -/
def tsW : List Nat := [0, 1]

/-- Base model of the one-job fixture. -/
def lpW : LPInstance := define_lp jcW mcW tsW 1000

/-- Process times of the one-job fixture. -/
def ptW : List (List Rat) := [[1]]

/-- Setup times of the one-job fixture (sentinel included, all 2). -/
def stW : List (List (List Rat)) := [[[2], [2]], [[2], [2]]]

/-- Extended model of the one-job fixture. -/
def extW : LPInstance := set_up_extended_lp lpW ptW stW 1000

/-- A feasible point of the one-job base model: the job runs on machine `k`
at timestep 0 only, start and completion 0, makespan 0. -/
def vW : Var → Rat
  | .x "1" "k" => 1
  | .z "1" "k" 0 => 1
  | _ => 0

/-- Asymmetric (job, job, machine) setup-time table over the sentinel plus
two jobs and two machines, exercising `_get_simple_setup_times`. -/
def stC3 : List (List (List Rat)) :=
  [[[5, 5], [5, 5], [5, 5]],
   [[5, 5], [5, 5], [10, 20]],
   [[30, 40], [50, 60], [5, 5]]]

/-- Process times of the two-job, two-machine fixture. -/
def ptC3 : List (List Rat) := [[1, 1], [1, 1]]

/-- Job capacities of the two-job, two-machine fixture. -/
def jcC3 : List (String × Rat) := [("0", 0), ("1", 1), ("2", 1)]

/-- Machine capacities of the two-job, two-machine fixture. -/
def mcC3 : List (String × Rat) := [("mA", 3), ("mB", 3)]

/-- Timesteps of the two-job, two-machine fixture. -/
def tsC3 : List Nat := [0, 1, 2, 3]

/-- Base model of the two-job, two-machine fixture. -/
def baseC3 : LPInstance := define_lp jcC3 mcC3 tsC3 1000

/-- Job capacities of the overestimation fixture: two unit jobs. -/
def jcS : List (String × Rat) := [("0", 0), ("1", 1), ("2", 1)]

/-- Machine capacities of the overestimation fixture: one machine that can
host both jobs at once. -/
def mcS : List (String × Rat) := [("k", 2)]

/-- Timesteps of the overestimation fixture. -/
def tsS : List Nat := List.range 8

/-- Process times of the overestimation fixture: both jobs take 1. -/
def ptS : List (List Rat) := [[1], [1]]

/-- Setup times of the overestimation fixture: every (predecessor, job,
machine) entry is 2, the sentinel included. -/
def stS : List (List (List Rat)) := [[[2], [2], [2]], [[2], [2], [2]], [[2], [2], [2]]]

/-- Base model of the overestimation fixture. -/
def baseS : LPInstance := define_lp jcS mcS tsS 1000

/-- Extended model of the overestimation fixture. -/
def extS : LPInstance := set_up_extended_lp baseS ptS stS 1000

/-- A feasible point of the simple formulation on the overestimation
fixture: both jobs run concurrently at timesteps 0 and 1, makespan 1. -/
def vSimpleS : Var → Rat
  | .x "1" "k" => 1
  | .x "2" "k" => 1
  | .z "1" "k" t => if t ≤ 1 then 1 else 0
  | .z "2" "k" t => if t ≤ 1 then 1 else 0
  | .c "1" => 1
  | .c "2" => 1
  | .cmax => 1
  | _ => 0

/-- A feasible point of the extended formulation on the overestimation
fixture: job 1 first (sentinel predecessor, charged setup 2), then job 2
(predecessor job 1, charged setup 2), makespan 7. -/
def vExtS : Var → Rat
  | .x "1" "k" => 1
  | .x "2" "k" => 1
  | .z "1" "k" t => if t ≤ 3 then 1 else 0
  | .z "2" "k" t => if 4 ≤ t then 1 else 0
  | .c "1" => 3
  | .c "2" => 7
  | .s "2" => 4
  | .cmax => 7
  | .y "0" "1" "k" => 1
  | .y "1" "2" "k" => 1
  | .a "1" "2" => 1
  | .b "1" "2" => 1
  | .d "1" "2" "k" => 1
  | .d "2" "1" "k" => 1
  | _ => 0

/-- Jobs of the solution-reader fixture. -/
def jobsR : List String := ["A", "B"]

/-- Machines of the solution-reader fixture. -/
def machinesR : List String := ["QUITO", "BELEM"]

/-- Job capacities of the solution-reader fixture. -/
def jobCapsR : List (String × Rat) := [("A", 2), ("B", 3)]

/-- Machine capacities of the solution-reader fixture. -/
def machineCapsR : List (String × Rat) := [("QUITO", 5), ("BELEM", 5)]

/-- A complete solved-variable map for the solution-reader fixture. -/
def varsOkR : List (String × Rat) :=
  [("x_ik_1_QUITO", 1), ("s_j_1", 0), ("c_j_1", 2),
   ("x_ik_2_BELEM", 1), ("s_j_2", 1), ("c_j_2", 3)]

/-- The dataframe row the reader builds for job "A" under `varsOkR`. -/
def rowAR : SolRow :=
  { job := "A", qubits := some 2, machine := "QUITO", capacity := some 5,
    start := 0, endTime := 2, duration := 3 }

/-- The dataframe row the reader builds for job "B" under `varsOkR`. -/
def rowBR : SolRow :=
  { job := "B", qubits := some 3, machine := "BELEM", capacity := some 5,
    start := 1, endTime := 3, duration := 3 }

/-- A solved-variable map whose second job has no machine with value 1. -/
def varsNoAssignR : List (String × Rat) :=
  [("x_ik_1_QUITO", 1), ("s_j_1", 0), ("c_j_1", 2), ("x_ik_2_BELEM", 0)]

/-- A solved-variable map whose second job is assigned but has no start
value. -/
def varsNoTimesR : List (String × Rat) :=
  [("x_ik_1_QUITO", 1), ("s_j_1", 0), ("c_j_1", 2),
   ("x_ik_2_BELEM", 1), ("c_j_2", 3)]

/-- Jobs fed to `_set_up_base_lp_exec` in the exclusion fixture: the first
job has no circuit, the second one a 3-qubit circuit. -/
def jobsC10 : List CircuitJob := [⟨"u1", none⟩, ⟨"u2", some ⟨3⟩⟩]

/-- Accelerators of the exclusion fixture. -/
def accsC10 : List Accelerator := [⟨"k", 5⟩]

/-! ## Evaluation lemmas -/

@[simp]
theorem LinExpr.eval_ofVar (v : Var → Rat) (w : Var) : (ofVar w).eval v = v w := by
  simp [ofVar, LinExpr.eval]

@[simp]
theorem LinExpr.eval_konst (v : Var → Rat) (q : Rat) : (konst q).eval v = q := by
  simp [konst, LinExpr.eval]

@[simp]
theorem LinExpr.eval_add (v : Var → Rat) (e1 e2 : LinExpr) :
    (e1.add e2).eval v = e1.eval v + e2.eval v := by
  simp [LinExpr.add, LinExpr.eval]
  ring

@[simp]
theorem LinExpr.eval_smul (v : Var → Rat) (q : Rat) (e : LinExpr) :
    (LinExpr.smul q e).eval v = q * e.eval v := by
  simp only [LinExpr.smul, LinExpr.eval, List.map_map]
  rw [mul_add]
  congr 1
  · induction e.terms with
    | nil => simp
    | cons h t ih =>
      simp only [List.map_cons, List.sum_cons, ih, Function.comp]
      ring

@[simp]
theorem LinExpr.eval_sub (v : Var → Rat) (e1 e2 : LinExpr) :
    (e1.sub e2).eval v = e1.eval v - e2.eval v := by
  simp [LinExpr.sub]
  ring

@[simp]
theorem LinExpr.eval_div (v : Var → Rat) (e : LinExpr) (q : Rat) :
    (e.div q).eval v = e.eval v / q := by
  simp only [LinExpr.div, LinExpr.eval, List.map_map]
  rw [add_div]
  congr 1
  · induction e.terms with
    | nil => simp
    | cons h t ih =>
      simp only [List.map_cons, List.sum_cons, ih, Function.comp, add_div]
      congr 1
      ring

theorem lpSum_foldl_eval (v : Var → Rat) (l : List LinExpr) (init : LinExpr) :
    (l.foldl LinExpr.add init).eval v = init.eval v + (l.map (LinExpr.eval v)).sum := by
  induction l generalizing init with
  | nil => simp
  | cons h t ih =>
    simp only [List.foldl_cons, List.map_cons, List.sum_cons, ih, LinExpr.eval_add]
    ring

@[simp]
theorem lpSum_eval (v : Var → Rat) (l : List LinExpr) :
    (lpSum l).eval v = (l.map (LinExpr.eval v)).sum := by
  simp [lpSum, lpSum_foldl_eval]

/-! ## Membership in the base model -/

theorem sentinel_mem_define_lp (jc mc : List (String × Rat)) (ts : List Nat)
    (M : Rat) : conSentinel ∈ (define_lp jc mc ts M).problem.constraints := by
  simp only [define_lp]
  exact List.mem_append_left _ (List.mem_append_left _ (List.mem_singleton.mpr rfl))

theorem jobBlock_mem_define_lp (jc mc : List (String × Rat)) (ts : List Nat)
    (M : Rat) (job : String) (co : Constr)
    (hjob : job ∈ (jc.map Prod.fst).drop 1)
    (hco : co ∈ [conMakespan job, conAssignOne (mc.map Prod.fst) job,
        conSpan (mc.map Prod.fst) ts job] ++
      (mc.map Prod.fst).map (fun m => conLink ts M job m) ++
      ts.flatMap (fun t => [conNoLate (mc.map Prod.fst) job t,
        conStart (mc.map Prod.fst) M job t])) :
    co ∈ (define_lp jc mc ts M).problem.constraints := by
  have h : co ∈ ((jc.map Prod.fst).drop 1).flatMap (fun j =>
      [conMakespan j, conAssignOne (mc.map Prod.fst) j,
        conSpan (mc.map Prod.fst) ts j] ++
      (mc.map Prod.fst).map (fun m => conLink ts M j m) ++
      ts.flatMap (fun t => [conNoLate (mc.map Prod.fst) j t,
        conStart (mc.map Prod.fst) M j t])) :=
    List.mem_flatMap.mpr ⟨job, hjob, hco⟩
  simp only [define_lp]
  exact List.mem_append_left _ (List.mem_append_right _ h)

theorem capacity_mem_define_lp (jc mc : List (String × Rat)) (ts : List Nat)
    (M : Rat) (t : Nat) (m : String) (ht : t ∈ ts) (hm : m ∈ mc.map Prod.fst) :
    conCapacity jc mc t m ∈ (define_lp jc mc ts M).problem.constraints := by
  have h : conCapacity jc mc t m ∈ ts.flatMap (fun t =>
      (mc.map Prod.fst).map (fun m => conCapacity jc mc t m)) :=
    List.mem_flatMap.mpr ⟨t, ht, List.mem_map_of_mem _ hm⟩
  simp only [define_lp]
  exact List.mem_append_right _ h

/-! ## Claim C4 -/

/-- C4: the base model produced by `_define_lp` fixes the sentinel job's
completion time to 0 (and every feasible point indeed gives it completion 0);
for every non-sentinel job it contains `completion[job] ≤ makespan` and the
exactly-one-machine assignment constraint; and for every (timestep, machine)
pair it contains the machine-capacity constraint. -/
theorem c4_base_model_core (jc mc : List (String × Rat)) (ts : List Nat) (M : Rat) :
    conSentinel ∈ (define_lp jc mc ts M).problem.constraints ∧
    (∀ v : Var → Rat, satAll v (define_lp jc mc ts M).problem.constraints →
      v (.c "0") = 0) ∧
    (∀ job ∈ (jc.map Prod.fst).drop 1,
      conMakespan job ∈ (define_lp jc mc ts M).problem.constraints ∧
      conAssignOne (mc.map Prod.fst) job ∈ (define_lp jc mc ts M).problem.constraints) ∧
    (∀ t ∈ ts, ∀ m ∈ mc.map Prod.fst,
      conCapacity jc mc t m ∈ (define_lp jc mc ts M).problem.constraints) := by
  refine ⟨sentinel_mem_define_lp jc mc ts M, ?_, ?_, ?_⟩
  · intro v hsat
    have h := hsat _ (sentinel_mem_define_lp jc mc ts M)
    simpa [conSentinel, Constr.holds] using h
  · intro job hjob
    constructor
    · exact jobBlock_mem_define_lp jc mc ts M job _ hjob
        (List.mem_append_left _ (List.mem_cons_self _ _))
    · exact jobBlock_mem_define_lp jc mc ts M job _ hjob
        (List.mem_append_left _ (List.mem_cons_of_mem _ (List.mem_cons_self _ _)))
  · intro t ht m hm
    exact capacity_mem_define_lp jc mc ts M t m ht hm

/-- Witness for C4 on the one-job fixture. -/
theorem c4_base_model_core_witness :
    conMakespan "1" ∈ (define_lp jcW mcW tsW 1000).problem.constraints ∧
    conAssignOne ["k"] "1" ∈ (define_lp jcW mcW tsW 1000).problem.constraints ∧
    conCapacity jcW mcW 0 "k" ∈ (define_lp jcW mcW tsW 1000).problem.constraints ∧
    vW (.c "0") = 0 := by
  obtain ⟨-, hsent, hjobs, hcap⟩ := c4_base_model_core jcW mcW tsW 1000
  obtain ⟨h1, h2⟩ := hjobs "1" (by decide)
  exact ⟨h1, h2, hcap 0 (by decide) "k" (by decide),
    hsent vW (by with_unfolding_all decide)⟩

/-! ## Claim C1 -/

/-- C1, counterexample: on the one-job fixture the base model does not
contain the at-most-one-machine constraint
`Σ_machine occupy[job][machine][t] ≤ 1` (in either orientation) for job `"1"`
at timestep 0, even though the claim says every base model contains it. -/
theorem c1_counterexample :
    (⟨lpSum (["k"].map (fun m => ofVar (.z "1" m 0))), .le, konst 1⟩ : Constr) ∉
      (define_lp jcW mcW tsW 1000).problem.constraints ∧
    (⟨konst 1, .ge, lpSum (["k"].map (fun m => ofVar (.z "1" m 0)))⟩ : Constr) ∉
      (define_lp jcW mcW tsW 1000).problem.constraints := by
  with_unfolding_all decide

/-- C1, amended: for every non-sentinel job and timestep the base model
contains the occupancy-weighted-timestep constraint
`(Σ_machine occupy[job][machine][t])·t ≤ completion[job]`; the
at-most-one-machine bound is not an explicit constraint, but every feasible
point with the declared binary domains satisfies it, because the
exactly-one-machine constraint together with the big-M link constraint
forces all occupation onto the single assigned machine. -/
theorem c1_occupancy_amended (jc mc : List (String × Rat)) (ts : List Nat)
    (M : Rat) (job : String) (t : Nat) (v : Var → Rat)
    (hjob : job ∈ (jc.map Prod.fst).drop 1) (ht : t ∈ ts)
    (hadm : admissibleOn (jc.map Prod.fst) (mc.map Prod.fst) ts v)
    (hsat : satAll v (define_lp jc mc ts M).problem.constraints) :
    conNoLate (mc.map Prod.fst) job t ∈ (define_lp jc mc ts M).problem.constraints ∧
    ((mc.map Prod.fst).map (fun m => v (.z job m t))).sum ≤ 1 := by
  have hjob' : job ∈ jc.map Prod.fst := List.drop_subset 1 _ hjob
  constructor
  · exact jobBlock_mem_define_lp jc mc ts M job _ hjob
      (List.mem_append_right _ (List.mem_flatMap.mpr
        ⟨t, ht, List.mem_cons_self _ _⟩))
  · -- pointwise: occupation is bounded by the assignment indicator
    have hpt : ∀ m ∈ mc.map Prod.fst, v (.z job m t) ≤ v (.x job m) := by
      intro m hm
      have hlink0 := hsat _ (jobBlock_mem_define_lp jc mc ts M job _ hjob
        (List.mem_append_left _ (List.mem_append_right _
          (List.mem_map_of_mem _ hm))))
      have hlink : (ts.map (fun u => v (.z job m u))).sum ≤ M * v (.x job m) := by
        simpa [conLink, Constr.holds, List.map_map, Function.comp_def] using hlink0
      have hzbin := hadm.2.1 job hjob' m hm t ht
      rcases hadm.1 job hjob' m hm with hx0 | hx1
      · -- not assigned here: total occupation is forced to 0
        have hnn : ∀ q ∈ ts.map (fun u => v (.z job m u)), 0 ≤ q := by
          intro q hq
          obtain ⟨u, hu, rfl⟩ := List.mem_map.mp hq
          rcases hadm.2.1 job hjob' m hm u hu with h | h <;> simp [h]
        have hone : v (.z job m t) ∈ ts.map (fun u => v (.z job m u)) :=
          List.mem_map_of_mem _ ht
        have hle := List.single_le_sum hnn _ hone
        rw [hx0, mul_zero] at hlink
        rcases hzbin with h | h
        · rw [hx0, h]
        · exfalso
          rw [h] at hle
          linarith
      · rcases hzbin with h | h <;> simp [hx1, h]
    have hassign0 := hsat _ (jobBlock_mem_define_lp jc mc ts M job _ hjob
      (List.mem_append_left _ (List.mem_cons_of_mem _ (List.mem_cons_self _ _))))
    have hassign : ((mc.map Prod.fst).map (fun m => v (.x job m))).sum = 1 := by
      simpa [conAssignOne, Constr.holds, List.map_map, Function.comp_def] using hassign0
    calc ((mc.map Prod.fst).map (fun m => v (.z job m t))).sum
        ≤ ((mc.map Prod.fst).map (fun m => v (.x job m))).sum := by
          apply List.sum_le_sum
          intro m hm
          exact hpt m hm
      _ = 1 := hassign

/-- Witness for the amended C1 on the one-job fixture. -/
theorem c1_occupancy_amended_witness :
    conNoLate ["k"] "1" 0 ∈ (define_lp jcW mcW tsW 1000).problem.constraints ∧
    ((["k"] : List String).map (fun m => vW (.z "1" m 0))).sum ≤ 1 := by
  have h := c1_occupancy_amended jcW mcW tsW 1000 "1" 0 vW
    (by decide) (by decide) (by with_unfolding_all decide)
    (by with_unfolding_all decide)
  exact h

/-! ## Membership in the extended model -/

theorem block1_mem_extended_lp (lp : LPInstance) (pt : List (List Rat))
    (st : List (List (List Rat))) (M : Rat) (job : String) (co : Constr)
    (hjob : job ∈ lp.jobs.drop 1)
    (hco : co ∈ [conPred lp.jobs lp.machines job,
        conCompletion lp.jobs lp.machines
          (makeDict2 (lp.jobs.drop 1) lp.machines pt 0)
          (makeDict3 lp.jobs lp.jobs lp.machines st 0) job] ++
      lp.machines.flatMap (fun m =>
        [conEdgeAssignPred lp.jobs M job m,
         conEdgeAssignSucc lp.jobs M job m,
         conFirstSlot job m]) ++
      lp.jobs.map (fun jj => conOrderTime lp.machines M job jj)) :
    co ∈ (set_up_extended_lp lp pt st M).problem.constraints := by
  have h : co ∈ (lp.jobs.drop 1).flatMap (fun job =>
      [conPred lp.jobs lp.machines job,
       conCompletion lp.jobs lp.machines
         (makeDict2 (lp.jobs.drop 1) lp.machines pt 0)
         (makeDict3 lp.jobs lp.jobs lp.machines st 0) job] ++
      lp.machines.flatMap (fun m =>
        [conEdgeAssignPred lp.jobs M job m,
         conEdgeAssignSucc lp.jobs M job m,
         conFirstSlot job m]) ++
      lp.jobs.map (fun jj => conOrderTime lp.machines M job jj)) :=
    List.mem_flatMap.mpr ⟨job, hjob, hco⟩
  simp only [set_up_extended_lp]
  exact List.mem_append_left _ (List.mem_append_left _ (List.mem_append_right _ h))

/-! ## Claim C2 -/

/-- C2: for every non-sentinel job, the extended formulation adds the
constraint `completion[job] ≥ start[job] +
Σ_machine assign[job][machine]·processTime[job][machine] +
Σ_{machine, predecessor} order[predecessor][job][machine]·
setupTime[predecessor][job][machine]`, charging exactly the setup time of
the job's immediate predecessor on its machine. -/
theorem c2_extended_completion_setup (lp : LPInstance) (pt : List (List Rat))
    (st : List (List (List Rat))) (M : Rat) (job : String)
    (hjob : job ∈ lp.jobs.drop 1) :
    conCompletion lp.jobs lp.machines
      (makeDict2 (lp.jobs.drop 1) lp.machines pt 0)
      (makeDict3 lp.jobs lp.jobs lp.machines st 0) job ∈
      (set_up_extended_lp lp pt st M).problem.constraints :=
  block1_mem_extended_lp lp pt st M job _ hjob
    (List.mem_append_left _ (List.mem_append_left _
      (List.mem_cons_of_mem _ (List.mem_cons_self _ _))))

/-- Witness for C2 on the one-job fixture. -/
theorem c2_extended_completion_setup_witness :
    conCompletion lpW.jobs lpW.machines
      (makeDict2 (lpW.jobs.drop 1) lpW.machines ptW 0)
      (makeDict3 lpW.jobs lpW.jobs lpW.machines stW 0) "1" ∈
      (set_up_extended_lp lpW ptW stW 1000).problem.constraints :=
  c2_extended_completion_setup lpW ptW stW 1000 "1" (by decide)

/-! ## Claim C5 -/

/-- C5: for every non-sentinel job and every other job `j`, the extended
formulation adds `completion[j] + (Σ_machine order[j][job][machine] − 1)·
big_m ≤ start[job]`; whenever the ordering-edge sum equals 1, any point
satisfying the constraint has `j` completing no later than `job` starts. -/
theorem c5_order_forces_sequence (lp : LPInstance) (pt : List (List Rat))
    (st : List (List (List Rat))) (M : Rat) (job jj : String)
    (hjob : job ∈ lp.jobs.drop 1) (hjj : jj ∈ lp.jobs) (_hne : jj ≠ job) :
    conOrderTime lp.machines M job jj ∈
      (set_up_extended_lp lp pt st M).problem.constraints ∧
    (∀ v : Var → Rat, (conOrderTime lp.machines M job jj).holds v →
      (lp.machines.map (fun m => v (.y jj job m))).sum = 1 →
      v (.c jj) ≤ v (.s job)) := by
  constructor
  · exact block1_mem_extended_lp lp pt st M job _ hjob
      (List.mem_append_right _ (List.mem_map_of_mem _ hjj))
  · intro v hholds hsum
    simp only [conOrderTime, Constr.holds, LinExpr.eval_add, LinExpr.eval_smul,
      LinExpr.eval_sub, LinExpr.eval_konst, LinExpr.eval_ofVar, lpSum_eval,
      List.map_map, Function.comp_def] at hholds
    rw [hsum] at hholds
    simp only [sub_self, mul_zero, add_zero] at hholds
    exact hholds

/-- Witness for C5 on the one-job fixture: job `"1"` with the sentinel as
the other job. -/
theorem c5_order_forces_sequence_witness :
    conOrderTime lpW.machines 1000 "1" "0" ∈
      (set_up_extended_lp lpW ptW stW 1000).problem.constraints ∧
    (∀ v : Var → Rat, (conOrderTime lpW.machines 1000 "1" "0").holds v →
      (lpW.machines.map (fun m => v (.y "0" "1" m))).sum = 1 →
      v (.c "0") ≤ v (.s "1")) :=
  c5_order_forces_sequence lpW ptW stW 1000 "1" "0" (by decide) (by decide)
    (by decide)

/-! ## Claim C6 -/

/-- C6: for every non-sentinel job and machine, the extended formulation
adds `occupy[job][machine][0] = order[sentinel][job][machine]`, so any
satisfying point occupies timestep 0 of a machine exactly when the sentinel
is its predecessor there. -/
theorem c6_first_slot (lp : LPInstance) (pt : List (List Rat))
    (st : List (List (List Rat))) (M : Rat) (job m : String)
    (hjob : job ∈ lp.jobs.drop 1) (hm : m ∈ lp.machines) :
    conFirstSlot job m ∈ (set_up_extended_lp lp pt st M).problem.constraints ∧
    (∀ v : Var → Rat, (conFirstSlot job m).holds v →
      v (.z job m 0) = v (.y "0" job m)) := by
  constructor
  · exact block1_mem_extended_lp lp pt st M job _ hjob
      (List.mem_append_left _ (List.mem_append_right _
        (List.mem_flatMap.mpr ⟨m, hm,
          List.mem_cons_of_mem _ (List.mem_cons_of_mem _
            (List.mem_cons_self _ _))⟩)))
  · intro v hholds
    simpa [conFirstSlot, Constr.holds] using hholds

/-- Witness for C6 on the one-job fixture. -/
theorem c6_first_slot_witness :
    conFirstSlot "1" "k" ∈ (set_up_extended_lp lpW ptW stW 1000).problem.constraints ∧
    (∀ v : Var → Rat, (conFirstSlot "1" "k").holds v →
      v (.z "1" "k" 0) = v (.y "0" "1" "k")) :=
  c6_first_slot lpW ptW stW 1000 "1" "k" (by decide) (by decide)

theorem mem_extended_of_mem_base (lp : LPInstance) (pt : List (List Rat))
    (st : List (List (List Rat))) (M : Rat) (co : Constr)
    (h : co ∈ lp.problem.constraints) :
    co ∈ (set_up_extended_lp lp pt st M).problem.constraints := by
  simp only [set_up_extended_lp]
  exact List.mem_append_left _ (List.mem_append_left _ (List.mem_append_left _ h))

/-! ## Claim C3 -/

/-- C3: the claim says the overestimated setup time of job `i` on machine
`m` is the maximum of the setup times of `i` over all candidate predecessors
`t ∉ {0, i}`, i.e. the maximum of `setup[t][i][m]` along the predecessor
axis.  On the asymmetric fixture `stC3` the only candidate predecessor of
job `"1"` is job `"2"`, whose setup-time row for job `"1"` is
`stC3[2][1] = [50, 60]`, so the claim mandates charges 50 on `"mA"` and 60
on `"mB"`.  The code instead reduces along the successor axis of row 1
(`max_j stC3[1][j][m] = [10, 20]`) and then deletes the first machine's
entry of every row (under the comment "remove job 0"), so the built model
charges job `"1"` 20 on `"mA"` and the makeDict default 0 on `"mB"`. -/
theorem c3_simple_setup_times_bug :
    getSimpleSetupTimes stC3 = some [[20], [60]] ∧
    (set_up_simple_lp baseC3 ptC3 stC3).map (fun lp =>
        lp.problem.constraints.drop baseC3.problem.constraints.length) =
      some [conSimple baseC3.machines
              (makeDict2 (baseC3.jobs.drop 1) baseC3.machines ptC3 0)
              (makeDict2 (baseC3.jobs.drop 1) baseC3.machines [[20], [60]] 0) "1",
            conSimple baseC3.machines
              (makeDict2 (baseC3.jobs.drop 1) baseC3.machines ptC3 0)
              (makeDict2 (baseC3.jobs.drop 1) baseC3.machines [[20], [60]] 0) "2"] ∧
    makeDict2 (baseC3.jobs.drop 1) baseC3.machines [[20], [60]] 0 "1" "mA" = 20 ∧
    makeDict2 (baseC3.jobs.drop 1) baseC3.machines [[20], [60]] 0 "1" "mB" = 0 ∧
    stC3.getD 2 [] = [[30, 40], [50, 60], [5, 5]] ∧
    ¬((20 : Rat) = 50 ∧ (0 : Rat) = 60) := by
  with_unfolding_all decide

/-! ## Claim C7 -/

/-- C7: the claim says the simple formulation's optimal makespan is at least
the extended formulation's on any instance where both are feasible.  On the
overestimation fixture (two unit jobs, one machine of capacity 2, process
time 1, every setup time 2) the machine-entry deletion inside
`_get_simple_setup_times` leaves an empty per-machine row, so the simple
formulation charges zero setup and admits the concurrent schedule `vSimpleS`
with makespan 1, while every admissible point of the extended formulation
has makespan at least 3 (process time 1 plus setup charge 2 forced by the
must-have-a-predecessor constraint); the extended formulation is feasible,
e.g. at `vExtS`.  Hence the simple optimum 1 is strictly below the extended
optimum, contradicting the claim. -/
theorem c7_overestimation_bug :
    ((set_up_simple_lp baseS ptS stS).isSome = true ∧
      satAll vSimpleS ((set_up_simple_lp baseS ptS stS).getD baseS).problem.constraints ∧
      admissibleOn ["0", "1", "2"] ["k"] tsS vSimpleS ∧
      vSimpleS Var.cmax = 1) ∧
    (satAll vExtS extS.problem.constraints ∧
      admissibleOn ["0", "1", "2"] ["k"] tsS vExtS ∧
      vExtS Var.cmax = 7) ∧
    (∀ v : Var → Rat, admissibleOn ["0", "1", "2"] ["k"] tsS v →
      satAll v extS.problem.constraints → 3 ≤ v Var.cmax) := by
  refine ⟨by with_unfolding_all decide, by with_unfolding_all decide, ?_⟩
  intro v hadm hsat
  -- the job-1 makespan bound from four constraints of the extended model
  have h1 := hsat _ (mem_extended_of_mem_base baseS ptS stS 1000 _
    (jobBlock_mem_define_lp jcS mcS tsS 1000 "1" _ (by decide)
      (List.mem_append_left _ (List.mem_cons_self _ _))))
  have h3 := hsat _ (mem_extended_of_mem_base baseS ptS stS 1000 _
    (jobBlock_mem_define_lp jcS mcS tsS 1000 "1" _ (by decide)
      (List.mem_append_left _ (List.mem_cons_of_mem _ (List.mem_cons_self _ _)))))
  have h4 := hsat _ (block1_mem_extended_lp baseS ptS stS 1000 "1" _ (by decide)
    (List.mem_append_left _ (List.mem_append_left _ (List.mem_cons_self _ _))))
  have h7 := hsat _ (block1_mem_extended_lp baseS ptS stS 1000 "1" _ (by decide)
    (List.mem_append_left _ (List.mem_append_left _
      (List.mem_cons_of_mem _ (List.mem_cons_self _ _)))))
  have hs1 : 0 ≤ v (.s "1") := (hadm.2.2.1 "1" (by decide)).2
  -- evaluate the four constraints at the fixture
  have e1 : v (.c "1") ≤ v Var.cmax := by
    simpa [conMakespan, Constr.holds] using h1
  have e3 : v (.x "1" "k") = 1 := by
    have h3' := h3
    rw [show conAssignOne (mcS.map Prod.fst) "1" =
        ⟨lpSum [ofVar (.x "1" "k")], .eq, konst 1⟩ from rfl] at h3'
    simpa [Constr.holds, lpSum] using h3'
  have e4 : 1 ≤ v (.y "0" "1" "k") + v (.y "1" "1" "k") + v (.y "2" "1" "k") := by
    have h4' := h4
    rw [show conPred baseS.jobs baseS.machines "1" =
        ⟨lpSum [ofVar (.y "0" "1" "k"), ofVar (.y "1" "1" "k"),
          ofVar (.y "2" "1" "k")], .ge, konst 1⟩ from rfl] at h4'
    simp only [Constr.holds, lpSum_eval, LinExpr.eval_ofVar, LinExpr.eval_konst,
      List.map_cons, List.map_nil, List.sum_cons, List.sum_nil] at h4'
    linarith
  have e7 : v (.s "1") + v (.x "1" "k") +
      (2 * v (.y "0" "1" "k") + 2 * v (.y "1" "1" "k") + 2 * v (.y "2" "1" "k")) ≤
      v (.c "1") := by
    have h7' := h7
    rw [show conCompletion baseS.jobs baseS.machines
        (makeDict2 (baseS.jobs.drop 1) baseS.machines ptS 0)
        (makeDict3 baseS.jobs baseS.jobs baseS.machines stS 0) "1" =
        ⟨ofVar (.c "1"), .ge,
          ((ofVar (.s "1")).add (lpSum [LinExpr.smul 1 (ofVar (.x "1" "k"))])).add
            (lpSum [LinExpr.smul 2 (ofVar (.y "0" "1" "k")),
              LinExpr.smul 2 (ofVar (.y "1" "1" "k")),
              LinExpr.smul 2 (ofVar (.y "2" "1" "k"))])⟩ from by
        with_unfolding_all decide] at h7'
    simp only [Constr.holds, LinExpr.eval_add, lpSum_eval, LinExpr.eval_smul,
      LinExpr.eval_ofVar, List.map_cons, List.map_nil, List.sum_cons,
      List.sum_nil] at h7'
    linarith
  linarith

/-- Witness for C7: the makespan lower bound of the extended formulation,
instantiated at the explicit feasible point `vExtS`. -/
theorem c7_overestimation_bug_witness : 3 ≤ vExtS Var.cmax :=
  c7_overestimation_bug.2.2 vExtS (by with_unfolding_all decide)
    (by with_unfolding_all decide)

/-! ## Claim C8 -/

theorem readRows_ok_spec (machines : List String)
    (jc mc vars : List (String × Rat)) (l : List (Nat × String))
    (rows : List SolRow)
    (h : readRows machines jc mc vars l = .ok rows) :
    rows.length = l.length ∧
    ∀ r ∈ rows, r.duration = r.endTime - r.start + 1 ∧ r.machine ∈ machines := by
  induction l generalizing rows with
  | nil =>
    simp only [readRows] at h
    cases h
    simp
  | cons q rest ih =>
    simp only [readRows] at h
    rcases hjr : readJobRow machines jc mc vars q.1 q.2 with msg | row
    · rw [hjr] at h
      cases h
    · rw [hjr] at h
      rcases hrr : readRows machines jc mc vars rest with msg | rows'
      · rw [hrr] at h
        cases h
      · rw [hrr] at h
        cases h
        obtain ⟨ihlen, ihrows⟩ := ih rows' hrr
        refine ⟨by simp [ihlen], ?_⟩
        intro r hr
        rcases List.mem_cons.mp hr with hr0 | hrmem
        · subst hr0
          simp only [readJobRow] at hjr
          rcases hfind : machines.find?
              (fun m => (varGet vars (xKey q.1 m)).getD 0 == 1) with - | am
          · rw [hfind] at hjr
            cases hjr
          · rw [hfind] at hjr
            rcases hs : varGet vars (sKey q.1) with - | st <;>
              rcases hc : varGet vars (cKey q.1) with - | en <;>
              rw [hs, hc] at hjr <;> cases hjr
            exact ⟨rfl, List.mem_of_find?_eq_some hfind⟩
        · exact ihrows r hrmem

theorem readRows_error_of_bad (machines : List String)
    (jc mc vars : List (String × Rat)) (l : List (Nat × String))
    (p : Nat × String) (hp : p ∈ l)
    (hbad : machines.find? (fun m => (varGet vars (xKey p.1 m)).getD 0 == 1) = none ∨
      varGet vars (sKey p.1) = none ∨ varGet vars (cKey p.1) = none) :
    ∃ msg, readRows machines jc mc vars l = .error msg := by
  induction l with
  | nil => cases hp
  | cons q rest ih =>
    rcases List.mem_cons.mp hp with hq | hrest
    · subst hq
      have herr : ∃ msg, readJobRow machines jc mc vars p.1 p.2 = .error msg := by
        simp only [readJobRow]
        rcases hfind : machines.find?
            (fun m => (varGet vars (xKey p.1 m)).getD 0 == 1) with - | am
        · exact ⟨_, rfl⟩
        · rcases hbad with hb | hb
          · rw [hfind] at hb
            cases hb
          · rcases hb with hb | hb <;> rw [hb] <;>
              first
                | exact ⟨_, rfl⟩
                | (rcases varGet vars (sKey p.1) with - | st <;> exact ⟨_, rfl⟩)
      obtain ⟨msg, hmsg⟩ := herr
      exact ⟨msg, by simp [readRows, hmsg]⟩
    · obtain ⟨msg', hmsg'⟩ := ih hrest
      rcases hjr : readJobRow machines jc mc vars q.1 q.2 with msg | row
      · exact ⟨msg, by simp [readRows, hjr]⟩
      · exact ⟨msg', by simp [readRows, hjr, hmsg']⟩

/-- C8: result extraction reports an error when some enumerated job has no
machine whose assignment value is 1, or has an assigned machine but a
missing solved start or completion value; on success it returns one row per
job, each carrying a machine from the machine list and a duration equal to
end minus start plus 1. -/
theorem c8_result_extraction (jobs machines : List String)
    (jc mc vars : List (String × Rat)) :
    (∀ rows, read_solution_file jobs machines jc mc vars = .ok rows →
      rows.length = jobs.length ∧
      ∀ r ∈ rows, r.duration = r.endTime - r.start + 1 ∧ r.machine ∈ machines) ∧
    (∀ p ∈ jobs.enum.map (fun q => (q.1 + 1, q.2)),
      (machines.find? (fun m => (varGet vars (xKey p.1 m)).getD 0 == 1) = none ∨
        varGet vars (sKey p.1) = none ∨ varGet vars (cKey p.1) = none) →
      ∃ msg, read_solution_file jobs machines jc mc vars = .error msg) := by
  constructor
  · intro rows h
    obtain ⟨hlen, hrows⟩ := readRows_ok_spec machines jc mc vars _ rows h
    refine ⟨?_, hrows⟩
    simpa using hlen
  · intro p hp hbad
    exact readRows_error_of_bad machines jc mc vars _ p hp hbad

/-- Witness for C8 on the solution-reader fixture: a successful read with
the expected durations, a missing-assignment error, and a missing-start
error. -/
theorem c8_result_extraction_witness :
    (∀ r ∈ [rowAR, rowBR],
      r.duration = r.endTime - r.start + 1 ∧ r.machine ∈ machinesR) ∧
    (∃ msg, read_solution_file jobsR machinesR jobCapsR machineCapsR
      varsNoAssignR = .error msg) ∧
    (∃ msg, read_solution_file jobsR machinesR jobCapsR machineCapsR
      varsNoTimesR = .error msg) := by
  refine ⟨?_, ?_, ?_⟩
  · exact ((c8_result_extraction jobsR machinesR jobCapsR machineCapsR
      varsOkR).1 [rowAR, rowBR] (by with_unfolding_all exact rfl)).2
  · exact (c8_result_extraction jobsR machinesR jobCapsR machineCapsR
      varsNoAssignR).2 (2, "B") (by decide) (by with_unfolding_all decide)
  · exact (c8_result_extraction jobsR machinesR jobCapsR machineCapsR
      varsNoTimesR).2 (2, "B") (by decide) (by with_unfolding_all decide)

/-! ## Claim C9 -/

/-- C9: the model builder is deterministic — two runs of `_define_lp` on
identical job-capacity mappings, machine-capacity mappings, timestep lists
and big-M produce identical models: the same problem (objective and
constraint list, coefficients included, in the same order), job list,
machine list and named-circuit records.  In the embedding the builder is a
pure function of these inputs (the Python loops iterate dicts in insertion
order and share no mutable state across calls), so equal inputs give
structurally equal models. -/
theorem c9_builder_deterministic (jc1 jc2 mc1 mc2 : List (String × Rat))
    (ts1 ts2 : List Nat) (M1 M2 : Rat)
    (hjc : jc1 = jc2) (hmc : mc1 = mc2) (hts : ts1 = ts2) (hM : M1 = M2) :
    define_lp jc1 mc1 ts1 M1 = define_lp jc2 mc2 ts2 M2 ∧
    (define_lp jc1 mc1 ts1 M1).problem.constraints =
      (define_lp jc2 mc2 ts2 M2).problem.constraints := by
  subst hjc hmc hts hM
  exact ⟨rfl, rfl⟩

/-- Witness for C9 on the one-job fixture. -/
theorem c9_builder_deterministic_witness :
    define_lp jcW mcW tsW 1000 = define_lp jcW mcW tsW 1000 ∧
    (define_lp jcW mcW tsW 1000).problem.constraints =
      (define_lp jcW mcW tsW 1000).problem.constraints :=
  c9_builder_deterministic jcW jcW mcW mcW tsW tsW 1000 1000 rfl rfl rfl rfl

/-! ## Claim C10 -/

theorem filterMap_circuit_filter {α : Type} (g : CircuitJob → Circuit → α)
    (jobs : List CircuitJob) :
    (jobs.filter (fun j => j.circuit.isSome)).filterMap
      (fun j => j.circuit.map (g j)) =
    jobs.filterMap (fun j => j.circuit.map (g j)) := by
  induction jobs with
  | nil => rfl
  | cons j rest ih =>
    cases hc : j.circuit <;>
      simp [List.filter_cons, List.filterMap_cons, hc, ih]

/-- C10: `_set_up_base_lp_exec` silently skips every job whose circuit is
`None`: the model it builds equals the one built from the list with those
jobs removed, and (when no surviving job shares its uuid and the uuid is
not the sentinel's) such a job's uuid appears neither among the model's
jobs — hence it gets no capacity entry, no variables and no constraints —
nor among the named-circuit records; no error is raised, the builder being
total. -/
theorem c10_none_circuit_excluded (jobs : List CircuitJob)
    (accs : List Accelerator) (M : Rat) (T : Nat) :
    set_up_base_lp_exec jobs accs M T =
      set_up_base_lp_exec (jobs.filter (fun j => j.circuit.isSome)) accs M T ∧
    (∀ j ∈ jobs, j.circuit = none →
      (∀ j' ∈ jobs, j'.circuit ≠ none → j'.uuid ≠ j.uuid) →
      j.uuid ≠ "0" →
      j.uuid ∉ (set_up_base_lp_exec jobs accs M T).jobs ∧
      j.uuid ∉ (set_up_base_lp_exec jobs accs M T).named_circuits.map
        JobHelper.name) := by
  constructor
  · simp only [set_up_base_lp_exec, execJobCapacities, execNamedCircuits,
      filterMap_circuit_filter]
  · intro j hj hnone hfresh hsent
    constructor
    · intro hmem
      simp only [set_up_base_lp_exec, define_lp, execJobCapacities,
        List.map_cons, List.mem_cons, List.mem_map] at hmem
      rcases hmem with h0 | ⟨p, hp, hpj⟩
      · exact hsent h0
      · obtain ⟨j', hj', hj'eq⟩ := List.mem_filterMap.mp hp
        rcases hc : j'.circuit with - | circ
        · rw [hc] at hj'eq
          cases hj'eq
        · rw [hc] at hj'eq
          cases hj'eq
          exact hfresh j' hj' (by simp [hc]) hpj
    · intro hmem
      simp only [set_up_base_lp_exec, execNamedCircuits, List.map_cons,
        List.mem_cons, List.mem_map] at hmem
      rcases hmem with h0 | ⟨p, hp, hpj⟩
      · exact hsent h0
      · obtain ⟨j', hj', hj'eq⟩ := List.mem_filterMap.mp hp
        rcases hc : j'.circuit with - | circ
        · rw [hc] at hj'eq
          cases hj'eq
        · rw [hc] at hj'eq
          cases hj'eq
          exact hfresh j' hj' (by simp [hc]) hpj

/-- Witness for C10 on the exclusion fixture: the circuitless job `"u1"` is
dropped and leaves no trace in the model. -/
theorem c10_none_circuit_excluded_witness :
    set_up_base_lp_exec jobsC10 accsC10 100 2 =
      set_up_base_lp_exec (jobsC10.filter (fun j => j.circuit.isSome)) accsC10 100 2 ∧
    "u1" ∉ (set_up_base_lp_exec jobsC10 accsC10 100 2).jobs ∧
    "u1" ∉ (set_up_base_lp_exec jobsC10 accsC10 100 2).named_circuits.map
      JobHelper.name := by
  obtain ⟨heq, hmem⟩ := c10_none_circuit_excluded jobsC10 accsC10 100 2
  obtain ⟨h1, h2⟩ := hmem ⟨"u1", none⟩ (by decide) rfl (by decide) (by decide)
  exact ⟨heq, h1, h2⟩

end QEnv
